import Mathlib

/-!
Shallow embedding of the concurrency core of the repository:
`src/utils/concurrentRunner.ts` (bounded task runner with timeout, retry and
progress accounting) and `src/utils/rateLimiter.ts` (per-resource admission
controller with concurrency / RPM / TPM strategies).

Times are milliseconds. JavaScript numbers are modelled as `ℚ` where division
occurs (rate limiter) and as `ℕ` where only integer arithmetic occurs
(runner delays and counters). JavaScript `Array`s of timestamps are `List ℚ`.
-/

namespace ConcurrentRunner

/-- Result of one settled invocation of the caller-supplied executor:
a resolved value or a rejection carrying the error message. -/
inductive ExecResult (R : Type) : Type
  | ok (r : R)
  | err (msg : String)
deriving DecidableEq, Repr

/-- Terminal status of a task, `TaskResult.status` in the source. -/
inductive TStatus : Type
  | success
  | failed
  | skipped
deriving DecidableEq, Repr

/-- JavaScript `String.prototype.includes` on character lists:
`pat` occurs contiguously in the list. -/
def listContainsSub (pat : List Char) : List Char → Bool
  | [] => pat.isEmpty
  | c :: t => pat.isPrefixOf (c :: t) || listContainsSub pat t

/-- JavaScript `hay.includes(pat)`. -/
def strContains (hay pat : String) : Bool :=
  listContainsSub pat.toList hay.toList

/-- JavaScript `toLowerCase`, modelled per character (the messages involved
are ASCII, where the two agree). -/
def toLowerStr (s : String) : String :=
  ⟨s.toList.map Char.toLower⟩

/-- Model of `isRetryableError` from `concurrentRunner.ts`: lowercase the message and
match the allow-list of transient failure markers. -/
def isRetryableError (msg : String) : Bool :=
  let m := toLowerStr msg
  strContains m "timeout" ||
  strContains m "network" ||
  strContains m "fetch" ||
  strContains m "econnreset" ||
  strContains m "enotfound" ||
  strContains m "socket" ||
  strContains m "abort" ||
  strContains m "429" ||
  strContains m "503" ||
  strContains m "502"

/-- Trace of `processTask` on one task: the returned outcome fields
(`status`, `attempts`, `error`, `result`) plus instrumentation recording how
often the executor was invoked and which backoff sleeps were performed. -/
structure RunTrace (R : Type) where
  status : TStatus
  attempts : ℕ
  error : Option String
  result : Option R
  invocations : ℕ
  sleeps : List ℕ
deriving DecidableEq, Repr

/-- The retry-exhaustion tail of `processTask` (source lines 190-212):
status is `skipped` iff the last error message contains `"timed out"`
(case-sensitive `includes`), otherwise `failed`. -/
def exhaust {R : Type} (lastError : Option String) (attempts inv : ℕ)
    (sleeps : List ℕ) : RunTrace R :=
  match lastError with
  | some e =>
    if strContains e "timed out" then ⟨.skipped, attempts, some e, none, inv, sleeps⟩
    else ⟨.failed, attempts, some e, none, inv, sleeps⟩
  | none => ⟨.failed, attempts, none, none, inv, sleeps⟩

/-- The `while (attempts < maxRetries)` loop of `processTask`.  `fuel` counts
the remaining loop iterations; the loop guard `attempts < maxRetries` is
equivalent to `0 < fuel` under the invariant `attempts + fuel = maxRetries`
maintained by every call, so the loop runs with 1-based attempt numbers
`attempts + 1, …, maxRetries`.  `exec a` is the settled (already
timeout-raced) result of the executor on attempt `a`.  Note the source's
catch block has no `break`: on a non-retryable error it merely skips the
backoff sleep and the loop continues, which this embedding reproduces. -/
def processTaskAux {R : Type} (exec : ℕ → ExecResult R) (maxRetries retryDelayMs : ℕ) :
    (fuel attempts : ℕ) → Option String → ℕ → List ℕ → RunTrace R
  | 0, attempts, lastError, inv, sleeps => exhaust lastError attempts inv sleeps
  | fuel + 1, attempts, _lastError, inv, sleeps =>
    let a := attempts + 1
    match exec a with
    | .ok r => ⟨.success, a, none, some r, inv + 1, sleeps⟩
    | .err e =>
      let willRetry : Bool := decide (a < maxRetries) && isRetryableError e
      let sleeps' :=
        if willRetry then sleeps ++ [min (retryDelayMs * 2 ^ (a - 1)) 30000]
        else sleeps
      processTaskAux exec maxRetries retryDelayMs fuel a (some e) (inv + 1) sleeps'

/-- Model of `processTask` from `concurrentRunner.ts`: run the retry loop from
`attempts = 0` with no recorded error. -/
def processTask {R : Type} (exec : ℕ → ExecResult R) (maxRetries retryDelayMs : ℕ) :
    RunTrace R :=
  processTaskAux exec maxRetries retryDelayMs maxRetries 0 none 0 []

end ConcurrentRunner

namespace ConcurrentRunner

/-- Helper: the exhaustion record carries the supplied attempt count. -/
theorem exhaust_attempts {R : Type} (le : Option String) (a i : ℕ) (s : List ℕ) :
    (exhaust (R := R) le a i s).attempts = a := by
  cases le <;> simp [exhaust] <;> split <;> rfl

/-- Helper: the exhaustion record carries the supplied invocation count. -/
theorem exhaust_invocations {R : Type} (le : Option String) (a i : ℕ) (s : List ℕ) :
    (exhaust (R := R) le a i s).invocations = i := by
  cases le <;> simp [exhaust] <;> split <;> rfl

/-- Helper: the exhaustion record carries the supplied sleep list. -/
theorem exhaust_sleeps {R : Type} (le : Option String) (a i : ℕ) (s : List ℕ) :
    (exhaust (R := R) le a i s).sleeps = s := by
  cases le <;> simp [exhaust] <;> split <;> rfl

/-- Helper: the exhaustion record never reports success. -/
theorem exhaust_status_ne_success {R : Type} (le : Option String) (a i : ℕ) (s : List ℕ) :
    (exhaust (R := R) le a i s).status ≠ .success := by
  cases le <;> simp [exhaust] <;> split <;> simp

/-- Helper: on exhaustion, status is skipped exactly when the recorded last
error contains the substring "timed out". -/
theorem exhaust_skipped_iff {R : Type} (le : Option String) (a i : ℕ) (s : List ℕ) :
    (exhaust (R := R) le a i s).status = .skipped ↔
      ∃ e, (exhaust (R := R) le a i s).error = some e ∧ strContains e "timed out" = true := by
  cases le with
  | none => simp [exhaust]
  | some e =>
    by_cases h : strContains e "timed out" = true <;> simp [exhaust, h]

/-- Helper: every run of the retry loop ends either in the success record
produced inside the loop or in an exhaustion record. -/
theorem processTaskAux_cases {R : Type} (exec : ℕ → ExecResult R) (mr rd : ℕ) :
    ∀ (fuel attempts : ℕ) (le : Option String) (inv : ℕ) (sl : List ℕ),
      (∃ a r i s, processTaskAux exec mr rd fuel attempts le inv sl =
          ⟨.success, a, none, some r, i, s⟩) ∨
      (∃ le' a i s, processTaskAux exec mr rd fuel attempts le inv sl =
          exhaust le' a i s) := by
  intro fuel
  induction fuel with
  | zero =>
    intro attempts le inv sl
    exact Or.inr ⟨le, attempts, inv, sl, rfl⟩
  | succ f ih =>
    intro attempts le inv sl
    show (∃ _, _) ∨ (∃ _, _)
    rw [processTaskAux]
    cases hx : exec (attempts + 1) with
    | ok r =>
      exact Or.inl ⟨attempts + 1, r, inv + 1, sl, rfl⟩
    | err e =>
      exact ih (attempts + 1) (some e) (inv + 1) _

/-- C1: the spec says a task whose execution always rejects with the
non-retryable message "invalid input" is attempted exactly once (attempts = 1).
The code's catch block lacks a `break` on the non-retryable path, so the loop
re-invokes the executor: with the default maxRetries = 3 the executor runs
3 times and the outcome reports attempts = 3 (status "failed"). -/
theorem nonRetryable_error_runs_all_attempts :
    processTask (R := Unit) (fun _ => .err "invalid input") 3 2000 =
      ⟨.failed, 3, some "invalid input", none, 3, []⟩ := by decide

/-- C5: whenever the retry loop exhausts (the outcome is not a success), the
outcome status is skipped if and only if the last error's message contains the
substring "timed out"; otherwise it is failed.  (In the runner, `recordOutcome`
then increments exactly the counter matching the status.) -/
theorem exhausted_skipped_iff_timed_out {R : Type} (exec : ℕ → ExecResult R)
    (mr rd : ℕ) (h : (processTask exec mr rd).status ≠ .success) :
    ((processTask exec mr rd).status = .skipped ↔
      ∃ e, (processTask exec mr rd).error = some e ∧ strContains e "timed out" = true) ∧
    ((processTask exec mr rd).status = .skipped ∨
      (processTask exec mr rd).status = .failed) := by
  rcases processTaskAux_cases exec mr rd mr 0 none 0 [] with
    ⟨a, r, i, s, hs⟩ | ⟨le', a, i, s, hs⟩
  · exact absurd (by rw [processTask, hs]) h
  · rw [processTask, hs]
    refine ⟨exhaust_skipped_iff le' a i s, ?_⟩
    cases le' with
    | none => simp [exhaust]
    | some e =>
      by_cases hc : strContains e "timed out" = true <;> simp [exhaust, hc]

/-- Witness for C5 at a concrete input: a single attempt rejecting with
"timed out" exhausts and is classified skipped. -/
theorem exhausted_skipped_iff_timed_out_witness :
    (processTask (R := Unit) (fun _ => .err "timed out") 1 2000).status ≠ .success ∧
    (((processTask (R := Unit) (fun _ => .err "timed out") 1 2000).status = .skipped ↔
      ∃ e, (processTask (R := Unit) (fun _ => .err "timed out") 1 2000).error = some e ∧
        strContains e "timed out" = true) ∧
     ((processTask (R := Unit) (fun _ => .err "timed out") 1 2000).status = .skipped ∨
      (processTask (R := Unit) (fun _ => .err "timed out") 1 2000).status = .failed)) :=
  ⟨by decide, exhausted_skipped_iff_timed_out (fun _ => .err "timed out") 1 2000 (by decide)⟩

end ConcurrentRunner

namespace ConcurrentRunner

/-- Helper: on an executor that always rejects with a retryable message `m`,
the retry loop consumes all its fuel, invoking the executor once per
iteration and sleeping the capped exponential backoff after every iteration
except the last (`willRetry` is false on the final attempt).  The invariant
`attempts + fuel = mr` links the fuel to the source's loop guard. -/
theorem processTaskAux_retryable {R : Type} (m : String)
    (hr : isRetryableError m = true) (mr rd : ℕ) :
    ∀ (fuel attempts : ℕ) (le : Option String) (inv : ℕ) (sl : List ℕ),
      attempts + fuel = mr →
      processTaskAux (R := R) (fun _ => .err m) mr rd fuel attempts le inv sl =
        exhaust (if fuel = 0 then le else some m) (attempts + fuel) (inv + fuel)
          (sl ++ (List.range (fuel - 1)).map
            (fun k => min (rd * 2 ^ (attempts + k)) 30000)) := by
  intro fuel
  induction fuel with
  | zero =>
    intro attempts le inv sl _
    simp [processTaskAux]
  | succ f ih =>
    intro attempts le inv sl hmr
    simp only [processTaskAux]
    cases f with
    | zero =>
      have hd : decide (attempts + 1 < mr) = false := decide_eq_false (by omega)
      simp only [hd, Bool.false_and, Bool.false_eq_true, if_false]
      rw [ih (attempts + 1) (some m) (inv + 1) sl (by omega)]
      simp
    | succ f' =>
      have hd : decide (attempts + 1 < mr) = true := decide_eq_true (by omega)
      simp only [hd, hr, Bool.and_self, if_true]
      rw [ih (attempts + 1) (some m) (inv + 1) _ (by omega)]
      have hrange : (List.range (f' + 1 + 1 - 1)).map
            (fun k => min (rd * 2 ^ (attempts + k)) 30000) =
          min (rd * 2 ^ (attempts + 1 - 1)) 30000 ::
            (List.range (f' + 1 - 1)).map
              (fun k => min (rd * 2 ^ (attempts + 1 + k)) 30000) := by
        simp only [Nat.add_sub_cancel]
        rw [List.range_succ_eq_map, List.map_cons, List.map_map]
        congr 1
        refine List.map_congr_left ?_
        intro k _
        have he : attempts + (k + 1) = attempts + 1 + k := by omega
        simp only [Function.comp_apply, Nat.succ_eq_add_one, he]
      rw [hrange]
      simp only [List.append_assoc, List.singleton_append]
      congr 1
      · omega
      · omega

end ConcurrentRunner

namespace ConcurrentRunner

/-- C6: a task whose execution always rejects with a retryable message (for
example one containing "econnreset") is attempted the full maxRetries times,
with a backoff sleep of min(retryDelayMs * 2^(attempt-1), 30000) ms after
each attempt except the last — at the default base delay 2000 the sleep
sequence is 2000, 4000, 8000, …, capped at 30000 ms. -/
theorem retryable_backoff_schedule (m : String) (hr : isRetryableError m = true)
    (mr rd : ℕ) (hmr : 1 ≤ mr) :
    (processTask (R := Unit) (fun _ => .err m) mr rd).attempts = mr ∧
    (processTask (R := Unit) (fun _ => .err m) mr rd).invocations = mr ∧
    (processTask (R := Unit) (fun _ => .err m) mr rd).sleeps =
      (List.range (mr - 1)).map (fun k => min (rd * 2 ^ k) 30000) := by
  have h := processTaskAux_retryable (R := Unit) m hr mr rd mr 0 none 0 [] (by omega)
  rw [processTask, h]
  refine ⟨?_, ?_, ?_⟩
  · rw [exhaust_attempts]
    omega
  · rw [exhaust_invocations]
    omega
  · rw [exhaust_sleeps]
    simp

/-- Witness for C6: always rejecting with "econnreset" under maxRetries = 4
and base delay 2000 gives 4 attempts and sleeps 2000, 4000, 8000. -/
theorem retryable_backoff_schedule_witness :
    isRetryableError "econnreset" = true ∧ 1 ≤ 4 ∧
    ((processTask (R := Unit) (fun _ => .err "econnreset") 4 2000).attempts = 4 ∧
     (processTask (R := Unit) (fun _ => .err "econnreset") 4 2000).invocations = 4 ∧
     (processTask (R := Unit) (fun _ => .err "econnreset") 4 2000).sleeps =
       (List.range 3).map (fun k => min (2000 * 2 ^ k) 30000)) :=
  ⟨by decide, by decide,
    retryable_backoff_schedule "econnreset" (by decide) 4 2000 (by decide)⟩

end ConcurrentRunner

namespace ConcurrentRunner

/-- Model of `TaskStats` from `concurrentRunner.ts`. -/
structure TaskStats where
  total : ℕ
  completed : ℕ
  succeeded : ℕ
  failed : ℕ
  skipped : ℕ
  retrying : ℕ
  inProgress : ℕ
deriving DecidableEq, Repr

/-- Model of `TaskResult` from `concurrentRunner.ts` (the task payload is looked up by
index from the submission list). -/
structure TaskResult (T R : Type) where
  task : T
  index : ℕ
  status : TStatus
  result : Option R
  error : Option String
  attempts : ℕ
deriving DecidableEq, Repr

/-- Stats at the start of a run: `total` is the task count, every other
counter is zero. -/
def initStats (total : ℕ) : TaskStats :=
  ⟨total, 0, 0, 0, 0, 0, 0⟩

/-- The terminal stats mutation a completed task performs: `processTask`
increments exactly the counter matching the outcome status (succeeded,
failed or skipped) and the worker then increments `completed`. -/
def recordOutcome {T R : Type} (st : TaskStats) (o : TaskResult T R) : TaskStats :=
  match o.status with
  | .success => { st with succeeded := st.succeeded + 1, completed := st.completed + 1 }
  | .failed => { st with failed := st.failed + 1, completed := st.completed + 1 }
  | .skipped => { st with skipped := st.skipped + 1, completed := st.completed + 1 }

/-- Model of `runConcurrentTasks` from `concurrentRunner.ts`.  Workers claim each queue
index exactly once (the shared cursor `queueIndex++` advances atomically under
the cooperative, single-threaded scheduling model) and push one outcome per
task as it completes; `order` is the completion order, an arbitrary
permutation of `0..N-1` abstracting over the worker count and the
interleaving.  At the end the outcomes are sorted by original index
(`results.sort((a, b) => a.index - b.index)`). -/
def runConcurrentTasks {T R : Type} [Inhabited T] (tasks : List T)
    (execFor : ℕ → ℕ → ExecResult R) (maxRetries retryDelayMs : ℕ)
    (order : List ℕ) : List (TaskResult T R) × TaskStats :=
  let outcomeAt : ℕ → TaskResult T R := fun i =>
    let t := processTask (execFor i) maxRetries retryDelayMs
    ⟨tasks.getD i default, i, t.status, t.result, t.error, t.attempts⟩
  let pushed := order.map outcomeAt
  let sorted := pushed.mergeSort (fun a b => decide (a.index ≤ b.index))
  let stats := pushed.foldl recordOutcome (initStats tasks.length)
  (sorted, stats)

/-- Helper: folding terminal outcome accounting adds exactly one to the sum
succeeded + failed + skipped per outcome. -/
theorem foldl_recordOutcome_sum {T R : Type} :
    ∀ (l : List (TaskResult T R)) (st : TaskStats),
      (l.foldl recordOutcome st).succeeded + (l.foldl recordOutcome st).failed +
          (l.foldl recordOutcome st).skipped =
        st.succeeded + st.failed + st.skipped + l.length := by
  intro l
  induction l with
  | nil => intro st; simp
  | cons o t ih =>
    intro st
    rw [List.foldl_cons, List.length_cons, ih (recordOutcome st o)]
    cases h : o.status <;> simp [recordOutcome, h] <;> omega

/-- Helper: folding terminal outcome accounting never touches `total`. -/
theorem foldl_recordOutcome_total {T R : Type} :
    ∀ (l : List (TaskResult T R)) (st : TaskStats),
      (l.foldl recordOutcome st).total = st.total := by
  intro l
  induction l with
  | nil => intro st; simp
  | cons o t ih =>
    intro st
    rw [List.foldl_cons, ih (recordOutcome st o)]
    cases h : o.status <;> simp [recordOutcome, h]

end ConcurrentRunner

namespace ConcurrentRunner

/-- C3: for every input list of N tasks and every completion order (which is
what the worker count and scheduling can influence), the runner returns
exactly N outcomes whose indices, read in order, are 0..N-1, and the final
counters satisfy succeeded + failed + skipped = N (with total = N). -/
theorem runConcurrentTasks_outcomes_sorted_and_counted {T R : Type} [Inhabited T]
    (tasks : List T) (execFor : ℕ → ℕ → ExecResult R) (mr rd : ℕ)
    (order : List ℕ) (h : order.Perm (List.range tasks.length)) :
    (runConcurrentTasks tasks execFor mr rd order).1.map (·.index) =
        List.range tasks.length ∧
    (runConcurrentTasks tasks execFor mr rd order).1.length = tasks.length ∧
    (runConcurrentTasks tasks execFor mr rd order).2.succeeded +
        (runConcurrentTasks tasks execFor mr rd order).2.failed +
        (runConcurrentTasks tasks execFor mr rd order).2.skipped = tasks.length ∧
    (runConcurrentTasks tasks execFor mr rd order).2.total = tasks.length := by
  classical
  set N := tasks.length with hN
  set outcomeAt : ℕ → TaskResult T R := fun i =>
    let t := processTask (execFor i) mr rd
    ⟨tasks.getD i default, i, t.status, t.result, t.error, t.attempts⟩ with hout
  set pushed := order.map outcomeAt with hpushed
  have hrun : runConcurrentTasks tasks execFor mr rd order =
      (pushed.mergeSort (fun a b => decide (a.index ≤ b.index)),
        pushed.foldl recordOutcome (initStats N)) := rfl
  have hidx : pushed.map (·.index) = order := by
    rw [hpushed, List.map_map]
    have : ((fun o : TaskResult T R => o.index) ∘ outcomeAt) = id := by
      funext i
      rfl
    rw [this, List.map_id]
  have hperm : (pushed.mergeSort (fun a b => decide (a.index ≤ b.index))).Perm pushed :=
    List.mergeSort_perm pushed _
  have hpermIdx :
      ((pushed.mergeSort (fun a b => decide (a.index ≤ b.index))).map (·.index)).Perm
        (List.range N) := by
    refine (hperm.map (·.index)).trans ?_
    rw [hidx]
    exact h
  have hsorted :
      List.Sorted (· ≤ ·)
        ((pushed.mergeSort (fun a b => decide (a.index ≤ b.index))).map (·.index)) := by
    rw [List.Sorted, List.pairwise_map]
    refine List.Pairwise.imp ?_
      (List.sorted_mergeSort ?_ ?_ pushed)
    · intro a b hab
      exact of_decide_eq_true hab
    · intro a b c hab hbc
      have hab' := of_decide_eq_true hab
      have hbc' := of_decide_eq_true hbc
      exact decide_eq_true (le_trans hab' hbc')
    · intro a b
      rcases Nat.le_total a.index b.index with hle | hle
      · simp [hle]
      · simp [hle]
  have hrangeSorted : List.Sorted (· ≤ ·) (List.range N) :=
    List.Pairwise.imp le_of_lt (List.pairwise_lt_range N)
  have heq : (pushed.mergeSort (fun a b => decide (a.index ≤ b.index))).map (·.index) =
      List.range N :=
    List.eq_of_perm_of_sorted hpermIdx hsorted hrangeSorted
  refine ⟨by rw [hrun]; exact heq, ?_, ?_, ?_⟩
  · rw [hrun]
    rw [List.length_mergeSort, hpushed, List.length_map]
    exact h.length_eq.trans (List.length_range N)
  · rw [hrun]
    show (List.foldl recordOutcome (initStats N) pushed).succeeded +
        (List.foldl recordOutcome (initStats N) pushed).failed +
        (List.foldl recordOutcome (initStats N) pushed).skipped = N
    rw [foldl_recordOutcome_sum pushed (initStats N)]
    have hlen : pushed.length = N := by
      rw [hpushed, List.length_map, h.length_eq, List.length_range]
    rw [hlen]
    simp [initStats]
  · rw [hrun]
    show (List.foldl recordOutcome (initStats N) pushed).total = N
    rw [foldl_recordOutcome_total]
    rfl

/-- Witness for C3: two tasks completing in reversed order still yield
outcomes indexed 0, 1 with succeeded + failed + skipped = 2. -/
theorem runConcurrentTasks_outcomes_sorted_and_counted_witness :
    ([1, 0] : List ℕ).Perm (List.range ([10, 20] : List ℕ).length) ∧
    ((runConcurrentTasks [10, 20] (fun _ _ => .ok (0 : ℕ)) 3 2000 [1, 0]).1.map (·.index) =
        List.range ([10, 20] : List ℕ).length ∧
      (runConcurrentTasks [10, 20] (fun _ _ => .ok (0 : ℕ)) 3 2000 [1, 0]).1.length =
        ([10, 20] : List ℕ).length ∧
      (runConcurrentTasks [10, 20] (fun _ _ => .ok (0 : ℕ)) 3 2000 [1, 0]).2.succeeded +
          (runConcurrentTasks [10, 20] (fun _ _ => .ok (0 : ℕ)) 3 2000 [1, 0]).2.failed +
          (runConcurrentTasks [10, 20] (fun _ _ => .ok (0 : ℕ)) 3 2000 [1, 0]).2.skipped =
        ([10, 20] : List ℕ).length ∧
      (runConcurrentTasks [10, 20] (fun _ _ => .ok (0 : ℕ)) 3 2000 [1, 0]).2.total =
        ([10, 20] : List ℕ).length) :=
  ⟨by decide, runConcurrentTasks_outcomes_sorted_and_counted [10, 20]
    (fun _ _ => .ok 0) 3 2000 [1, 0] (by decide)⟩

end ConcurrentRunner

namespace ConcurrentRunner

/-- The timeout rejection message built by `withTimeout` via `processTask`:
`Task ${index} timed out after ${timeoutMs}ms`. -/
def timeoutMessage (index timeoutMs : ℕ) : String :=
  "Task " ++ toString index ++ " timed out after " ++ toString timeoutMs ++ "ms"

/-- Temporal model of the attempt loop for one task.  `d a` is the intrinsic
duration of the executor's a-th invocation and `res a` the value it would
settle with; `withTimeout` races it against a `timeoutMs` timer, so the
attempt observes `res a` after `d a` ms when `d a ≤ timeoutMs` and otherwise
observes the timeout rejection after `timeoutMs` ms while the invocation
keeps running in the background (a fired timer cannot abort it).  The result
is the list of real in-flight intervals `(start, duration)` of the executor
invocations, one per attempt, started at the current clock `now`; after a
failed attempt the loop sleeps the backoff exactly when `willRetry` holds
and then starts the next invocation. -/
def attemptScheduleAux {R : Type} (d : ℕ → ℕ) (res : ℕ → ExecResult R)
    (index timeoutMs maxRetries retryDelayMs : ℕ) :
    (fuel attempts now : ℕ) → List (ℕ × ℕ)
  | 0, _, _ => []
  | fuel + 1, attempts, now =>
    let a := attempts + 1
    let obs : ExecResult R :=
      if d a ≤ timeoutMs then res a else .err (timeoutMessage index timeoutMs)
    (now, d a) ::
      (match obs with
       | .ok _ => []
       | .err e =>
         let obsDur := min (d a) timeoutMs
         let willRetry : Bool := decide (a < maxRetries) && isRetryableError e
         let sleep := if willRetry then min (retryDelayMs * 2 ^ (a - 1)) 30000 else 0
         attemptScheduleAux d res index timeoutMs maxRetries retryDelayMs
           fuel a (now + obsDur + sleep))

/-- In-flight intervals of all executor invocations for one task, clock
starting at 0. -/
def attemptSchedule {R : Type} (d : ℕ → ℕ) (res : ℕ → ExecResult R)
    (index timeoutMs maxRetries retryDelayMs : ℕ) : List (ℕ × ℕ) :=
  attemptScheduleAux d res index timeoutMs maxRetries retryDelayMs maxRetries 0 0

/-- No two of the `(start, duration)` intervals are in flight at the same
time: each interval ends no later than every later interval starts. -/
def Chained (l : List (ℕ × ℕ)) : Prop :=
  List.Pairwise (fun i j => i.1 + i.2 ≤ j.1) l

instance : DecidablePred Chained := fun l => by
  unfold Chained
  infer_instance

/-- C8 counterexample: with the default timeout 60000 ms and maxRetries 3, an
executor that takes 200000 ms per invocation times out at 60000 ms; its
invocation keeps running while the loop starts the next attempt, so the
first and second invocations are in flight simultaneously (the timeout
message "Task 0 timed out after 60000ms" matches no retryable marker, so no
backoff sleep separates them). -/
theorem timed_out_attempt_overlaps_retry :
    attemptSchedule (R := Unit) (fun _ => 200000) (fun _ => .ok ()) 0 60000 3 2000 =
      [(0, 200000), (60000, 200000), (120000, 200000)] ∧
    ¬ Chained [((0 : ℕ), (200000 : ℕ)), (60000, 200000), (120000, 200000)] := by
  constructor
  · decide
  · decide

end ConcurrentRunner

namespace ConcurrentRunner

/-- Helper: when every invocation settles within the timeout, each interval
produced by the attempt loop starts no earlier than the clock and the whole
schedule is chained (later attempts start only after earlier ones end). -/
theorem attemptScheduleAux_chained {R : Type} (d : ℕ → ℕ) (res : ℕ → ExecResult R)
    (index timeoutMs mr rd : ℕ) (hd : ∀ a, d a ≤ timeoutMs) :
    ∀ (fuel attempts now : ℕ),
      (∀ x ∈ attemptScheduleAux d res index timeoutMs mr rd fuel attempts now,
        now ≤ x.1) ∧
      Chained (attemptScheduleAux d res index timeoutMs mr rd fuel attempts now) := by
  intro fuel
  induction fuel with
  | zero =>
    intro attempts now
    constructor
    · intro x hx
      cases hx
    · exact List.Pairwise.nil
  | succ f ih =>
    intro attempts now
    simp only [attemptScheduleAux]
    have hda : min (d (attempts + 1)) timeoutMs = d (attempts + 1) :=
      min_eq_left (hd (attempts + 1))
    cases hobs : (if d (attempts + 1) ≤ timeoutMs then res (attempts + 1)
        else .err (timeoutMessage index timeoutMs)) with
    | ok r =>
      refine ⟨?_, ?_⟩
      · intro x hx
        simp only [List.mem_singleton] at hx
        subst hx
        exact le_refl now
      · exact List.pairwise_singleton _ _
    | err e =>
      set sleep := if (decide (attempts + 1 < mr) && isRetryableError e) = true
        then min (rd * 2 ^ (attempts + 1 - 1)) 30000 else 0 with hsleep
      obtain ⟨hmem, hch⟩ := ih (attempts + 1) (now + min (d (attempts + 1)) timeoutMs + sleep)
      refine ⟨?_, ?_⟩
      · intro x hx
        rcases List.mem_cons.mp hx with hx | hx
        · subst hx
          exact le_refl now
        · exact le_trans (by omega) (hmem x hx)
      · refine List.Pairwise.cons ?_ hch
        intro j hj
        have := hmem j hj
        rw [hda] at this
        omega

/-- C8 (amended): the claim that a task's execution function never runs
concurrently with itself holds provided every invocation settles within the
attempt timeout; an invocation that outlives its timed-out attempt keeps
running in the background and can overlap the following attempt (see the
counterexample). -/
theorem no_overlap_when_durations_within_timeout {R : Type} (d : ℕ → ℕ)
    (res : ℕ → ExecResult R) (index timeoutMs mr rd : ℕ)
    (hd : ∀ a, d a ≤ timeoutMs) :
    Chained (attemptSchedule d res index timeoutMs mr rd) :=
  (attemptScheduleAux_chained d res index timeoutMs mr rd hd mr 0 0).2

/-- Witness for C8's amended theorem: invocations of 1000 ms under a
60000 ms timeout never overlap. -/
theorem no_overlap_when_durations_within_timeout_witness :
    (∀ a : ℕ, (fun _ : ℕ => 1000) a ≤ 60000) ∧
    Chained (attemptSchedule (R := Unit) (fun _ => 1000)
      (fun _ => .err "econnreset") 0 60000 3 2000) :=
  ⟨fun _ => Nat.le_of_lt (by norm_num),
    no_overlap_when_durations_within_timeout (fun _ => 1000)
      (fun _ => .err "econnreset") 0 60000 3 2000
      (fun _ => Nat.le_of_lt (by norm_num))⟩

end ConcurrentRunner

namespace RateLimiter

/-- Model of `RateLimitState` from `rateLimiter.ts`.  Timestamps and token counts are
JavaScript numbers, modelled as `ℚ` (the TPM refill rate `limit / 60000`
is fractional). -/
structure RateLimitState where
  tokens : ℚ
  lastRefill : ℚ
  requestsInWindow : List ℚ
  activeRequests : ℕ
deriving DecidableEq, Repr

/-- Model of `getState` on a resource id not yet in the map: `tokens` starts at 0 (not
at the limit), `lastRefill` at the creation time, the request window empty
and no active requests. -/
def initialState (now : ℚ) : RateLimitState :=
  ⟨0, now, [], 0⟩

/-- Model of `waitForTPM` from `rateLimiter.ts` for one sequential caller.  First the
bucket is refilled from the elapsed time and capped at the limit; if the
refilled tokens cover the cost they are debited and the caller is admitted
with no wait (result `none`).  Otherwise the caller computes
`waitTime = (cost - tokens) / (limit / 60000)`, sleeps it (the timer fires at
`now + waitTime + slack` for some `slack ≥ 0`), refills from the new elapsed
time and debits the cost unconditionally; the result records `some waitTime`.
The returned state keeps the window and active-request fields unchanged. -/
def waitForTPM (limit cost now slack : ℚ) (s : RateLimitState) :
    Option ℚ × RateLimitState :=
  let elapsedTime := now - s.lastRefill
  let refillAmount := (limit / 60000) * elapsedTime
  let tokens1 := min limit (s.tokens + refillAmount)
  if cost ≤ tokens1 then
    (none, { s with tokens := tokens1 - cost, lastRefill := now })
  else
    let needed := cost - tokens1
    let refillRate := limit / 60000
    let waitTime := needed / refillRate
    let now2 := now + waitTime + slack
    let tokens2 := min limit (tokens1 + (now2 - now) * refillRate)
    (some waitTime, { s with tokens := tokens2 - cost, lastRefill := now2 })

/-- A sequence of sequential TPM acquires.  Each step `(cost, delta, slack)`
runs `waitForTPM` at time `lastRefill + delta` (the clock advanced by
`delta ≥ 0` since the previous step left off) with timer slack `slack`. -/
def tpmRun (limit : ℚ) (steps : List (ℚ × ℚ × ℚ)) (s : RateLimitState) :
    RateLimitState :=
  steps.foldl
    (fun st p => (waitForTPM limit p.1 (st.lastRefill + p.2.1) p.2.2 st).2) s

end RateLimiter

namespace RateLimiter

/-- C2 counterexample: the claim says tokens stay within [0, limit] for every
estimated cost.  With limit 60 and estimated cost 120 on a fresh resource,
the debit-after-wait path refills to at most the limit (60) and then debits
the full cost, leaving tokens at -60 < 0. -/
theorem tpm_tokens_negative_when_cost_exceeds_limit :
    ((waitForTPM 60 120 0 0 (initialState 0)).2.tokens = -60) ∧
    (waitForTPM 60 120 0 0 (initialState 0)).2.tokens < 0 := by
  constructor
  · norm_num [waitForTPM, initialState]
  · norm_num [waitForTPM, initialState]

/-- Helper: one sequential TPM acquire with 0 ≤ cost ≤ limit preserves
0 ≤ tokens ≤ limit (and moves `lastRefill` to the admission time, which is
at least `now`). -/
theorem waitForTPM_tokens_bounds (limit cost now slack : ℚ) (s : RateLimitState)
    (hl : 0 < limit) (hc0 : 0 ≤ cost) (hcl : cost ≤ limit)
    (hnow : s.lastRefill ≤ now) (hslack : 0 ≤ slack)
    (ht0 : 0 ≤ s.tokens) (ht1 : s.tokens ≤ limit) :
    0 ≤ (waitForTPM limit cost now slack s).2.tokens ∧
    (waitForTPM limit cost now slack s).2.tokens ≤ limit ∧
    now ≤ (waitForTPM limit cost now slack s).2.lastRefill := by
  have hrate : 0 < limit / 60000 := by positivity
  have helapsed : 0 ≤ now - s.lastRefill := by linarith
  have hrefill : 0 ≤ (limit / 60000) * (now - s.lastRefill) :=
    mul_nonneg (le_of_lt hrate) helapsed
  set tokens1 := min limit (s.tokens + (limit / 60000) * (now - s.lastRefill))
    with htok1
  have ht1_0 : 0 ≤ tokens1 := le_min (le_of_lt hl) (by linarith)
  have ht1_l : tokens1 ≤ limit := min_le_left _ _
  by_cases hadm : cost ≤ tokens1
  · simp only [waitForTPM, ← htok1, if_pos hadm]
    refine ⟨by linarith, by linarith, le_refl now⟩
  · simp only [waitForTPM, ← htok1, if_neg hadm]
    push_neg at hadm
    have hneeded : 0 < cost - tokens1 := by linarith
    have hwait : 0 < (cost - tokens1) / (limit / 60000) := div_pos hneeded hrate
    have hfill :
        tokens1 + ((cost - tokens1) / (limit / 60000) + slack) * (limit / 60000) ≥
          cost := by
      rw [add_mul, div_mul_cancel₀ _ (ne_of_gt hrate)]
      nlinarith
    have harg :
        (now + (cost - tokens1) / (limit / 60000) + slack - now) =
          (cost - tokens1) / (limit / 60000) + slack := by ring
    constructor
    · simp only [harg]
      have : cost ≤ min limit
          (tokens1 + ((cost - tokens1) / (limit / 60000) + slack) * (limit / 60000)) :=
        le_min hcl hfill
      linarith
    constructor
    · simp only [harg]
      have : min limit
          (tokens1 + ((cost - tokens1) / (limit / 60000) + slack) * (limit / 60000)) ≤
            limit := min_le_left _ _
      linarith
    · show now ≤ now + (cost - tokens1) / (limit / 60000) + slack
      linarith

end RateLimiter

namespace RateLimiter

/-- C2 (amended): for a per-resource TPM state with limit L > 0, `tokens`
stays within [0, L] after every acquire of a sequence of sequential callers
whose estimated costs lie in [0, L].  (As stated the claim is false: a cost
above the limit — and likewise interleaved waiters sharing the bucket —
drives `tokens` negative, see the counterexample.) -/
theorem tpm_tokens_bounds_sequential (limit : ℚ) (steps : List (ℚ × ℚ × ℚ)) :
    ∀ s : RateLimitState, 0 < limit →
      (∀ p ∈ steps, 0 ≤ p.1 ∧ p.1 ≤ limit ∧ 0 ≤ p.2.1 ∧ 0 ≤ p.2.2) →
      0 ≤ s.tokens → s.tokens ≤ limit →
      0 ≤ (tpmRun limit steps s).tokens ∧ (tpmRun limit steps s).tokens ≤ limit := by
  induction steps with
  | nil =>
    intro s _ _ ht0 ht1
    exact ⟨ht0, ht1⟩
  | cons p t ih =>
    intro s hl hsteps ht0 ht1
    have hp := hsteps p (List.mem_cons_self p t)
    have hstep := waitForTPM_tokens_bounds limit p.1 (s.lastRefill + p.2.1) p.2.2 s
      hl hp.1 hp.2.1 (by linarith [hp.2.2.1]) hp.2.2.2 ht0 ht1
    have hrun : tpmRun limit (p :: t) s =
        tpmRun limit t ((waitForTPM limit p.1 (s.lastRefill + p.2.1) p.2.2 s).2) := by
      rfl
    rw [hrun]
    exact ih _ hl (fun q hq => hsteps q (List.mem_cons_of_mem p hq))
      hstep.1 hstep.2.1

/-- Witness for C2's amended theorem: two sequential acquires of costs 30 and
50 against limit 60 keep tokens within [0, 60]. -/
theorem tpm_tokens_bounds_sequential_witness :
    (0 : ℚ) < 60 ∧
    (∀ p ∈ ([(30, 0, 0), (50, 1000, 0)] : List (ℚ × ℚ × ℚ)),
      0 ≤ p.1 ∧ p.1 ≤ 60 ∧ 0 ≤ p.2.1 ∧ 0 ≤ p.2.2) ∧
    0 ≤ (initialState 0).tokens ∧ (initialState 0).tokens ≤ 60 ∧
    (0 ≤ (tpmRun 60 [(30, 0, 0), (50, 1000, 0)] (initialState 0)).tokens ∧
      (tpmRun 60 [(30, 0, 0), (50, 1000, 0)] (initialState 0)).tokens ≤ 60) :=
  ⟨by norm_num, by decide, by decide, by decide,
    tpm_tokens_bounds_sequential 60 [(30, 0, 0), (50, 1000, 0)] (initialState 0)
      (by norm_num) (by decide) (by decide) (by decide)⟩

/-- C9: a lazily created per-resource state initialises `tokens` to 0 (not to
the limit), so the very first TPM acquire on a fresh resource — performed at
the creation timestamp, since `getState` runs inside the same `acquire`
call — with estimated cost c > 0 never admits immediately: it computes a
wait of exactly c * 60000 / limit milliseconds. -/
theorem fresh_state_first_tpm_acquire_waits (limit c now slack : ℚ)
    (hl : 0 < limit) (hc : 0 < c) :
    (initialState now).tokens = 0 ∧
    (waitForTPM limit c now slack (initialState now)).1 =
      some (c * 60000 / limit) := by
  refine ⟨rfl, ?_⟩
  have htok1 : min limit ((initialState now).tokens +
      (limit / 60000) * (now - (initialState now).lastRefill)) = 0 := by
    simp [initialState]
    exact le_of_lt hl
  have hadm : ¬ c ≤ min limit ((initialState now).tokens +
      (limit / 60000) * (now - (initialState now).lastRefill)) := by
    rw [htok1]
    linarith
  simp only [waitForTPM, if_neg hadm]
  rw [htok1]
  congr 1
  rw [sub_zero]
  rw [div_div_eq_mul_div]

/-- Witness for C9: a fresh resource with limit 60 and first estimated cost
30 waits 30 * 60000 / 60 = 30000 ms. -/
theorem fresh_state_first_tpm_acquire_waits_witness :
    (0 : ℚ) < 60 ∧ (0 : ℚ) < 30 ∧
    ((initialState 0).tokens = 0 ∧
      (waitForTPM 60 30 0 0 (initialState 0)).1 = some (30 * 60000 / 60)) :=
  ⟨by norm_num, by norm_num,
    fresh_state_first_tpm_acquire_waits 60 30 0 0 (by norm_num) (by norm_num)⟩

end RateLimiter

namespace RateLimiter

/-- The pruning step of `waitForRPM`: keep only timestamps newer than
`now - 60000` (`state.requestsInWindow.filter(t => t > now - windowSize)`). -/
def pruneWindow (now : ℚ) (w : List ℚ) : List ℚ :=
  w.filter (fun t => decide (now - 60000 < t))

/-- Model of `waitForRPM` from `rateLimiter.ts`.  At clock `now` with window `w`:
prune the window; if fewer than `limit` entries remain, admit and append
`now`; otherwise compute `waitTime = oldest + 60000 - now`, sleep it (the
timer fires at `now + waitTime + slack`, `slack ≥ 0`) and re-evaluate
recursively on the pruned window (the source's dead `waitTime ≤ 0` branch
pushes immediately).  `slacks` supplies one timer slack per recursion; the
result is `some (admissionTime, newWindow)`, or `none` if the slack supply
runs out before admission. -/
def waitForRPM (limit : ℕ) : List ℚ → ℚ → List ℚ → Option (ℚ × List ℚ)
  | slacks, now, w =>
    let w' := pruneWindow now w
    if w'.length < limit then some (now, w' ++ [now])
    else
      let oldest := w'.headI
      let waitTime := oldest + 60000 - now
      if 0 < waitTime then
        match slacks with
        | [] => none
        | slack :: rest => waitForRPM limit rest (now + waitTime + slack) w'
      else some (now, w' ++ [now])

/-- Helper: the pruned window is a sublist of the window. -/
theorem pruneWindow_sublist (now : ℚ) (w : List ℚ) :
    (pruneWindow now w).Sublist w :=
  List.filter_sublist w

/-- Helper: in a sorted nonempty list, the head is a lower bound of every
member. -/
theorem sorted_headI_le {w : List ℚ} (hs : List.Sorted (· ≤ ·) w)
    {t : ℚ} (ht : t ∈ w) : w.headI ≤ t := by
  cases w with
  | nil => cases ht
  | cons h tl =>
    rcases List.mem_cons.mp ht with rfl | htl
    · exact le_refl t
    · exact (List.sorted_cons.mp hs).1 t htl

/-- Helper: if pruning at time `now'` drops the window length below `limit`
while the window held at least `limit` entries, some entry has aged past the
60 s window, so for a sorted window the oldest entry has: `headI + 60000 ≤
now'`. -/
theorem prune_short_implies_oldest_expired (limit : ℕ) (w : List ℚ) (now' : ℚ)
    (hs : List.Sorted (· ≤ ·) w) (hlen : limit ≤ w.length)
    (hshort : (pruneWindow now' w).length < limit) :
    w.headI + 60000 ≤ now' := by
  have hex : ∃ t ∈ w, ¬ (now' - 60000 < t) := by
    by_contra hall
    push_neg at hall
    have : pruneWindow now' w = w := by
      rw [pruneWindow]
      refine List.filter_eq_self.mpr ?_
      intro a ha
      exact decide_eq_true (hall a ha)
    rw [this] at hshort
    omega
  obtain ⟨t, htw, htold⟩ := hex
  push_neg at htold
  have := sorted_headI_le hs htw
  linarith

/-- Helper: every admission returned by the RPM wait loop happens no earlier
than the clock at which the loop was entered. -/
theorem waitForRPM_time_monotone (limit : ℕ) :
    ∀ (slacks : List ℚ) (now : ℚ) (w : List ℚ) (tA : ℚ) (w₂ : List ℚ),
      (∀ s ∈ slacks, 0 ≤ s) →
      waitForRPM limit slacks now w = some (tA, w₂) → now ≤ tA := by
  intro slacks
  induction slacks with
  | nil =>
    intro now w tA w₂ _ h
    rw [waitForRPM] at h
    by_cases hlen : (pruneWindow now w).length < limit
    · rw [if_pos hlen] at h
      cases h
      exact le_rfl
    · rw [if_neg hlen] at h
      by_cases hw : (0 : ℚ) < (pruneWindow now w).headI + 60000 - now
      · rw [if_pos hw] at h
        cases h
      · rw [if_neg hw] at h
        cases h
        exact le_rfl
  | cons slack rest ih =>
    intro now w tA w₂ hsl h
    rw [waitForRPM] at h
    by_cases hlen : (pruneWindow now w).length < limit
    · rw [if_pos hlen] at h
      cases h
      exact le_rfl
    · rw [if_neg hlen] at h
      by_cases hw : (0 : ℚ) < (pruneWindow now w).headI + 60000 - now
      · rw [if_pos hw] at h
        have hrec := ih (now + ((pruneWindow now w).headI + 60000 - now) + slack)
          (pruneWindow now w) tA w₂ (fun s hs => hsl s (List.mem_cons_of_mem _ hs)) h
        have hs0 : 0 ≤ slack := hsl slack (List.mem_cons_self _ _)
        linarith
      · rw [if_neg hw] at h
        cases h
        exact le_rfl

end RateLimiter

namespace RateLimiter

/-- Helper: the head of a nonempty list is a member. -/
theorem headI_mem_of_ne_nil {w : List ℚ} (h : w ≠ []) : w.headI ∈ w := by
  cases w with
  | nil => exact absurd rfl h
  | cons a t => exact List.mem_cons_self a t

/-- C7: an RPM acquire first prunes the window to timestamps newer than
now - 60000; if fewer than `limit` remain it admits at once and appends the
current time; otherwise it sleeps `(oldest + 60000) - now` and re-evaluates,
so any eventual admission happens no earlier than 60000 ms after the oldest
pruned-window timestamp — with limit 3 and three live timestamps, a 4th
acquire cannot resolve before the 1st call's timestamp ages past 60000 ms. -/
theorem rpm_no_admission_before_oldest_expires (limit : ℕ) (slacks : List ℚ)
    (now : ℚ) (w : List ℚ) (hlimit : 1 ≤ limit)
    (hs : List.Sorted (· ≤ ·) w) (hsl : ∀ s ∈ slacks, 0 ≤ s) :
    ((pruneWindow now w).length < limit →
      waitForRPM limit slacks now w = some (now, pruneWindow now w ++ [now])) ∧
    (limit ≤ (pruneWindow now w).length →
      ∀ tA w₂, waitForRPM limit slacks now w = some (tA, w₂) →
        w.headI + 60000 ≤ tA) := by
  constructor
  · intro hlen
    rw [waitForRPM]
    rw [if_pos hlen]
  · intro hlen tA w₂ h
    have hw' : pruneWindow now w ≠ [] := by
      intro hnil
      rw [hnil] at hlen
      simp at hlen
      omega
    have hmem : (pruneWindow now w).headI ∈ w :=
      (pruneWindow_sublist now w).subset (headI_mem_of_ne_nil hw')
    have hhead : w.headI ≤ (pruneWindow now w).headI := sorted_headI_le hs hmem
    rw [waitForRPM] at h
    rw [if_neg (by omega)] at h
    by_cases hw : (0 : ℚ) < (pruneWindow now w).headI + 60000 - now
    · rw [if_pos hw] at h
      cases slacks with
      | nil => cases h
      | cons slack rest =>
        have hrec := waitForRPM_time_monotone limit rest
          (now + ((pruneWindow now w).headI + 60000 - now) + slack)
          (pruneWindow now w) tA w₂
          (fun s hmem' => hsl s (List.mem_cons_of_mem _ hmem')) h
        have hs0 : 0 ≤ slack := hsl slack (List.mem_cons_self _ _)
        linarith
    · rw [if_neg hw] at h
      cases h
      push_neg at hw
      linarith

/-- Witness for C7: limit 3, window [0, 1, 2] (all live at clock 30000),
slack supply [0]. -/
theorem rpm_no_admission_before_oldest_expires_witness :
    1 ≤ 3 ∧ List.Sorted (· ≤ ·) ([0, 1, 2] : List ℚ) ∧
    (∀ s ∈ ([0] : List ℚ), 0 ≤ s) ∧
    (((pruneWindow 30000 [0, 1, 2]).length < 3 →
      waitForRPM 3 [0] 30000 [0, 1, 2] =
        some (30000, pruneWindow 30000 [0, 1, 2] ++ [30000])) ∧
     (3 ≤ (pruneWindow 30000 [0, 1, 2]).length →
      ∀ tA w₂, waitForRPM 3 [0] 30000 [0, 1, 2] = some (tA, w₂) →
        ([0, 1, 2] : List ℚ).headI + 60000 ≤ tA)) :=
  ⟨by omega, by decide, by decide,
    rpm_no_admission_before_oldest_expires 3 [0] 30000 [0, 1, 2]
      (by omega) (by decide) (by decide)⟩

end RateLimiter

namespace RateLimiter

/-- Per-resource state of the Concurrency strategy: `active` is
`state.activeRequests`, `queue` the FIFO wait queue of parked resolvers
(identified here by caller ids), and `inFlight` is instrumentation listing
the callers that have been admitted and have not yet finished. -/
structure ConcState where
  active : ℕ
  queue : List ℕ
  inFlight : List ℕ
deriving DecidableEq, Repr

/-- A fresh resource: `activeRequests = 0`, empty wait queue. -/
def freshConc : ConcState :=
  ⟨0, [], []⟩

/-- Model of `waitForConcurrency` from `rateLimiter.ts`: if `activeRequests < limit`,
increment and admit immediately; otherwise push a `{resolve, cost: 0}` entry
onto the FIFO wait queue and suspend (the parked caller increments
`activeRequests` when popped by `release`). -/
def waitForConcurrency (limit : ℕ) (id : ℕ) (s : ConcState) : ConcState :=
  if s.active < limit then
    { s with active := s.active + 1, inFlight := s.inFlight ++ [id] }
  else
    { s with queue := s.queue ++ [id] }

/-- Model of `release` from `rateLimiter.ts`: `activeRequests = max(0, active - 1)`
(natural subtraction), then `processQueue` pops the queue head — if any —
and resolves it unconditionally, with no limit check (the limit
configuration is not available in `release`); the woken waiter then
increments `activeRequests` and runs.  `fin` is the caller that finished
(removed from the in-flight instrumentation), or `none` for a release not
matched by any admitted acquire.  The second component reports the admitted
waiter, if any. -/
def release (fin : Option ℕ) (s : ConcState) : ConcState × Option ℕ :=
  let a := s.active - 1
  let inf := match fin with
    | some i => s.inFlight.erase i
    | none => s.inFlight
  match s.queue with
  | [] => (⟨a, [], inf⟩, none)
  | h :: t => (⟨a + 1, t, inf ++ [h]⟩, some h)

/-- A burst of acquire calls with no intervening release. -/
def acquireAll (limit : ℕ) (ids : List ℕ) (s : ConcState) : ConcState :=
  ids.foldl (fun st i => waitForConcurrency limit i st) s

/-- A sequence of release calls; collects the admitted waiters in order. -/
def releaseAll : List (Option ℕ) → ConcState → ConcState × List ℕ
  | [], s => (s, [])
  | f :: fs, s =>
    let step := release f s
    let rest := releaseAll fs step.1
    (rest.1, step.2.toList ++ rest.2)

/-- Helper: a burst of acquires that fits under the limit admits every
caller in order. -/
theorem acquireAll_under_limit (limit : ℕ) :
    ∀ (ids : List ℕ) (s : ConcState), s.active + ids.length ≤ limit →
      acquireAll limit ids s =
        ⟨s.active + ids.length, s.queue, s.inFlight ++ ids⟩ := by
  intro ids
  induction ids with
  | nil =>
    intro s _
    simp [acquireAll]
  | cons i t ih =>
    intro s hfit
    have hstep : waitForConcurrency limit i s =
        { s with active := s.active + 1, inFlight := s.inFlight ++ [i] } := by
      rw [waitForConcurrency, if_pos (by simp at hfit; omega)]
    have : acquireAll limit (i :: t) s =
        acquireAll limit t (waitForConcurrency limit i s) := rfl
    rw [this, hstep, ih _ (by simp at hfit ⊢; omega)]
    simp
    omega

/-- Helper: once `activeRequests` has reached the limit, every further
acquire in the burst is enqueued, in arrival order. -/
theorem acquireAll_at_limit (limit : ℕ) :
    ∀ (ids : List ℕ) (s : ConcState), limit ≤ s.active →
      acquireAll limit ids s = ⟨s.active, s.queue ++ ids, s.inFlight⟩ := by
  intro ids
  induction ids with
  | nil =>
    intro s _
    simp [acquireAll]
  | cons i t ih =>
    intro s hfull
    have hstep : waitForConcurrency limit i s =
        { s with queue := s.queue ++ [i] } := by
      rw [waitForConcurrency, if_neg (by omega)]
    have : acquireAll limit (i :: t) s =
        acquireAll limit t (waitForConcurrency limit i s) := rfl
    rw [this, hstep, ih _ (by simp; omega)]
    simp

/-- Helper: releases against a state whose queue holds enough waiters admit
exactly the first releases-many queued waiters, in FIFO order. -/
theorem releaseAll_fifo :
    ∀ (fins : List (Option ℕ)) (s : ConcState), fins.length ≤ s.queue.length →
      (releaseAll fins s).2 = s.queue.take fins.length := by
  intro fins
  induction fins with
  | nil =>
    intro s _
    simp [releaseAll]
  | cons f fs ih =>
    intro s hlen
    obtain ⟨a, q, inf⟩ := s
    cases q with
    | nil => simp at hlen
    | cons h t =>
      have ht : fs.length ≤ t.length := by
        simp at hlen
        omega
      cases f with
      | none =>
        show (release none ⟨a, h :: t, inf⟩).2.toList ++
            (releaseAll fs (release none ⟨a, h :: t, inf⟩).1).2 = _
        have hrel : release none ⟨a, h :: t, inf⟩ =
            (⟨a - 1 + 1, t, inf ++ [h]⟩, some h) := rfl
        rw [hrel]
        rw [ih _ (by simpa using ht)]
        simp
      | some i =>
        show (release (some i) ⟨a, h :: t, inf⟩).2.toList ++
            (releaseAll fs (release (some i) ⟨a, h :: t, inf⟩).1).2 = _
        have hrel : release (some i) ⟨a, h :: t, inf⟩ =
            (⟨a - 1 + 1, t, inf.erase i ++ [h]⟩, some h) := rfl
        rw [hrel]
        rw [ih _ (by simpa using ht)]
        simp

end RateLimiter

namespace RateLimiter

/-- C4: under the Concurrency strategy with limit L, a burst of more than L
acquires with no intervening release admits exactly the first L callers
immediately (they are the in-flight set, in order) and enqueues the rest as
pending waiters in arrival order; each subsequent release then admits
exactly one pending waiter, in FIFO order of the original acquire calls. -/
theorem concurrency_admits_limit_then_fifo (limit : ℕ) (ids : List ℕ)
    (fins : List (Option ℕ)) (hlim : limit ≤ ids.length)
    (hfin : fins.length ≤ ids.length - limit) :
    acquireAll limit ids freshConc =
      ⟨limit, ids.drop limit, ids.take limit⟩ ∧
    (releaseAll fins (acquireAll limit ids freshConc)).2 =
      (ids.drop limit).take fins.length := by
  have hsplit : acquireAll limit ids freshConc =
      acquireAll limit (ids.drop limit) (acquireAll limit (ids.take limit) freshConc) := by
    rw [acquireAll, acquireAll, acquireAll, ← List.foldl_append,
      List.take_append_drop]
  have htake : acquireAll limit (ids.take limit) freshConc =
      ⟨limit, [], ids.take limit⟩ := by
    have hlen : (ids.take limit).length = limit := by
      rw [List.length_take]
      omega
    have := acquireAll_under_limit limit (ids.take limit) freshConc
      (by rw [hlen]; simp [freshConc])
    rw [this]
    simp [freshConc, hlen]
  have hacq : acquireAll limit ids freshConc =
      ⟨limit, ids.drop limit, ids.take limit⟩ := by
    rw [hsplit, htake]
    have := acquireAll_at_limit limit (ids.drop limit)
      ⟨limit, [], ids.take limit⟩ (le_refl limit)
    rw [this]
    simp
  refine ⟨hacq, ?_⟩
  rw [hacq]
  exact releaseAll_fifo fins ⟨limit, ids.drop limit, ids.take limit⟩
    (by simpa [List.length_drop] using hfin)

/-- Witness for C4: limit 2, five acquires 1..5 — callers 1, 2 admitted,
3, 4, 5 queued — then three releases admitting 3, 4, 5 in FIFO order. -/
theorem concurrency_admits_limit_then_fifo_witness :
    2 ≤ ([1, 2, 3, 4, 5] : List ℕ).length ∧
    ([some 1, some 2, none] : List (Option ℕ)).length ≤
      ([1, 2, 3, 4, 5] : List ℕ).length - 2 ∧
    (acquireAll 2 [1, 2, 3, 4, 5] freshConc =
        ⟨2, ([1, 2, 3, 4, 5] : List ℕ).drop 2, ([1, 2, 3, 4, 5] : List ℕ).take 2⟩ ∧
      (releaseAll [some 1, some 2, none] (acquireAll 2 [1, 2, 3, 4, 5] freshConc)).2 =
        (([1, 2, 3, 4, 5] : List ℕ).drop 2).take
          ([some 1, some 2, none] : List (Option ℕ)).length) :=
  ⟨by decide, by decide,
    concurrency_admits_limit_then_fifo 2 [1, 2, 3, 4, 5] [some 1, some 2, none]
      (by decide) (by decide)⟩

/-- C10: `release` on a resource whose FIFO wait queue is non-empty dequeues
and resolves exactly one waiter unconditionally — `release` has no access to
the limit and performs no limit check — so a release not matched by a prior
admitted acquire admits a waiter while the previously admitted callers are
still active: with limit 2 and acquires 1, 2, 3, one unmatched release
leaves callers 1, 2, 3 all in flight, exceeding the limit. -/
theorem release_pops_queue_unconditionally :
    (∀ (fin : Option ℕ) (s : ConcState) (h : ℕ) (t : List ℕ),
      s.queue = h :: t →
      (release fin s).2 = some h ∧ (release fin s).1.queue = t) ∧
    ((release none (acquireAll 2 [1, 2, 3] freshConc)).1.inFlight = [1, 2, 3] ∧
      2 < (release none (acquireAll 2 [1, 2, 3] freshConc)).1.inFlight.length) := by
  constructor
  · intro fin s h t hq
    obtain ⟨a, q, inf⟩ := s
    simp only at hq
    subst hq
    cases fin with
    | none => exact ⟨rfl, rfl⟩
    | some i => exact ⟨rfl, rfl⟩
  · constructor
    · decide
    · decide

/-- Witness for C10 at a concrete state: releasing against queue [7] pops
waiter 7 regardless of the limit. -/
theorem release_pops_queue_unconditionally_witness :
    ((⟨2, [7], [1, 2]⟩ : ConcState).queue = 7 :: []) ∧
    ((release none ⟨2, [7], [1, 2]⟩).2 = some 7 ∧
      (release none ⟨2, [7], [1, 2]⟩).1.queue = []) :=
  ⟨rfl, release_pops_queue_unconditionally.1 none ⟨2, [7], [1, 2]⟩ 7 [] rfl⟩

end RateLimiter
